import Mathlib

/-!
Verification of the break_axes module (break_axes.py).

The module's interesting logic is embedded shallowly over the rationals:
the piecewise scale construction of create_scale (its validation loop and
the closures _forward/_inverse), the marker-geometry helpers
(offset_data_point, get_broken_points, xy2points), the whole-axes clip-path
grid (get_axes_clip_path), and the orchestration wrappers
(scale_axis, add_broken_line, add_broken_line_in_axis, clip_axes,
broken_and_clip_axes).

Floating-point numbers are modelled by rationals.  The host plotting
library's data-to-display transform is modelled by a diagonal affine map
(an AxCtx: per-axis scale, per-axis translation, and the dpi factor of the
figure's dpi_scale_trans), which is exactly what a linear matplotlib axes
provides.  Mutations of the axes object are modelled as an explicit trace
of effects together with an optional error: a Python exception corresponds
to the trace accumulated so far paired with `some` error kind.
-/

namespace BreakAxes

/-- Comparison `_prev_b <= a` of create_scale's loop, where `none` stands for
the initial `float("-inf")`. -/
def prevLe : Option ℚ → ℚ → Prop
  | none, _ => True
  | some p, a => p ≤ a

/-- Comparison `_prev_b < a` of create_scale's loop, `none` standing for
`float("-inf")`. -/
def prevLt : Option ℚ → ℚ → Prop
  | none, _ => True
  | some p, a => p < a

instance decPrevLe : (pb : Option ℚ) → (a : ℚ) → Decidable (prevLe pb a)
  | none, _ => isTrue trivial
  | some p, a => inferInstanceAs (Decidable (p ≤ a))

instance decPrevLt : (pb : Option ℚ) → (a : ℚ) → Decidable (prevLt pb a)
  | none, _ => isTrue trivial
  | some p, a => inferInstanceAs (Decidable (p < a))

/-- Python's `factor.insert(-1, g)`: insert `g` just before the last element
(and `[g]` on an empty list, as in Python). -/
def insertBeforeLast : List ℚ → ℚ → List ℚ
  | [], g => [g]
  | x :: rest, g =>
    match rest with
    | [] => [g, x]
    | _ :: _ => x :: insertBeforeLast rest g

/-- Validation-and-construction loop of create_scale (lines 74-87 of
break_axes.py): walk the interval list threading `_prev_b`, building the
breakpoint list `x0` and the slope list `factor`; `none` models the raised
ValueError. -/
def buildLoop : List (ℚ × ℚ × ℚ) → Option ℚ → List ℚ → List ℚ → Option (List ℚ × List ℚ)
  | [], _, x0, factor => some (x0, factor)
  | (a, b, f) :: rest, pb, x0, factor =>
    if a < b ∧ prevLe pb a then
      if f ≤ 0 then none
      else
        buildLoop rest (some b)
          (if prevLt pb a then x0 ++ [a, b] else x0 ++ [b])
          (if prevLt pb a then factor ++ [f, 1] else insertBeforeLast factor f)
    else none

/-- Data built by create_scale before it wraps `_forward`/`_inverse` into a
FuncScale: the breakpoint list `x0` and slope list `factor`, or `none` when
validation raises. -/
def buildScale (interval : List (ℚ × ℚ × ℚ)) : Option (List ℚ × List ℚ) :=
  buildLoop interval none [] []

/-- Consecutive-breakpoint segments `(x0[n], x0[n+1], factor[n])` traversed by
the `for n in range(N - 1)` loops of `_forward` and `_inverse`. -/
def segs : List ℚ → List ℚ → List (ℚ × ℚ × ℚ)
  | a :: b :: rest, g :: gs => (a, b, g) :: segs (b :: rest) gs
  | _, _ => []

/-- Loop body of `_forward` (lines 95-99): per segment, remap `x` when it lies
in `(xmin, xmax]` and accumulate `ymin`.  The state is the pair
(current `res` value at `x`, accumulated `ymin`); the numpy masked
assignment is elementwise, so a single scalar `x` is threaded. -/
def forwardLoop : List (ℚ × ℚ × ℚ) → ℚ → ℚ → ℚ → ℚ × ℚ
  | [], _, res, ymin => (res, ymin)
  | (xmin, xmax, g) :: rest, x, res, ymin =>
    forwardLoop rest x (if xmin < x ∧ x ≤ xmax then (x - xmin) * g + ymin else res)
      (ymin + (xmax - xmin) * g)

/-- The closure `_forward` of create_scale evaluated at a scalar `x`.  After
the loop, values above the leftover `xmax = x0[N-1]` are extrapolated with
`factor[-1]` (lines 91-103).  With a nonempty validated interval list the
loop runs at least once, so `x0` has at least two entries and the leftover
`xmax` is the last breakpoint; the degenerate `x0 = []` case (where Python
would hit an unbound local) is never reached under the theorems below. -/
def forwardFun (x0 factor : List ℚ) (x : ℚ) : ℚ :=
  let p := forwardLoop (segs x0 factor) x x (x0.headD 0)
  if x > x0.getLastD 0 then (x - x0.getLastD 0) * factor.getLastD 0 + p.2 else p.1

/-- Loop body of `_inverse` (lines 109-115): per segment compute
`ymax = ymin + (xmax - xmin) * factor[n]`, remap `y` in `(ymin, ymax]`,
then slide `ymin` to `ymax`. -/
def inverseLoop : List (ℚ × ℚ × ℚ) → ℚ → ℚ → ℚ → ℚ × ℚ
  | [], _, res, ymin => (res, ymin)
  | (xmin, xmax, g) :: rest, z, res, ymin =>
    inverseLoop rest z
      (if ymin < z ∧ z ≤ ymin + (xmax - xmin) * g then (z - ymin) / g + xmin else res)
      (ymin + (xmax - xmin) * g)

/-- The closure `_inverse` of create_scale evaluated at a scalar `z`:
after the loop, values above the leftover `ymax` are extrapolated with
`factor[-1]` anchored at the leftover `xmax = x0[N-1]` (lines 105-119). -/
def inverseFun (x0 factor : List ℚ) (z : ℚ) : ℚ :=
  let p := inverseLoop (segs x0 factor) z z (x0.headD 0)
  if z > p.2 then (z - p.2) / factor.getLastD 0 + x0.getLastD 0 else p.1

/-- The full create_scale: validation plus the forward/inverse function pair
wrapped by the returned FuncScale (the optional log remap of FuncScaleLog
belongs to the host library and is outside the interval logic). -/
def create_scale (interval : List (ℚ × ℚ × ℚ)) : Option ((ℚ → ℚ) × (ℚ → ℚ)) :=
  match buildScale interval with
  | none => none
  | some (x0, factor) => some (fun x => forwardFun x0 factor x, fun z => inverseFun x0 factor z)

/-- Spec-side validity of an interval list, threading the previous end:
every interval has `start < end` and a positive factor, and starts at or
after the previous interval's end ("a1 < b1 <= a2 < b2 <= ..., all
factors > 0"). -/
def validFrom : Option ℚ → List (ℚ × ℚ × ℚ) → Prop
  | _, [] => True
  | pb, (a, b, f) :: rest => (a < b ∧ prevLe pb a) ∧ 0 < f ∧ validFrom (some b) rest

instance decValidFrom : (pb : Option ℚ) → (I : List (ℚ × ℚ × ℚ)) → Decidable (validFrom pb I)
  | _, [] => isTrue trivial
  | pb, (a, b, f) :: rest =>
    have : Decidable (validFrom (some b) rest) := decValidFrom (some b) rest
    inferInstanceAs (Decidable ((a < b ∧ prevLe pb a) ∧ 0 < f ∧ validFrom (some b) rest))

/-- Validity of a whole interval list, as the spec states it. -/
def validSpec (I : List (ℚ × ℚ × ℚ)) : Prop := validFrom none I

instance (I : List (ℚ × ℚ × ℚ)) : Decidable (validSpec I) := decValidFrom none I

/-- Proof-side shape of a segment list: consecutive segments abut, each is
nondegenerate and has a positive slope, and the first starts at `lo`. -/
def Chained : ℚ → List (ℚ × ℚ × ℚ) → Prop
  | _, [] => True
  | lo, (a, b, g) :: rest => a = lo ∧ a < b ∧ 0 < g ∧ Chained b rest

/-- Right end of a segment list starting at `lo` (the last `xmax`, or `lo`
itself when there are no segments). -/
def hiOf : ℚ → List (ℚ × ℚ × ℚ) → ℚ
  | lo, [] => lo
  | _, (_, b, _) :: rest => hiOf b rest

/-- Total image height of a segment list: the sum of `(xmax - xmin) * factor`
accumulated into `ymin` by the loops. -/
def rise : List (ℚ × ℚ × ℚ) → ℚ
  | [] => 0
  | (a, b, g) :: rest => (b - a) * g + rise rest

/-- Functional form of the forward loop's remapping on `(lo, hiOf lo s]`. -/
def pv : List (ℚ × ℚ × ℚ) → ℚ → ℚ → ℚ
  | [], _, ymin => ymin
  | (a, b, g) :: rest, x, ymin =>
    if x ≤ b then (x - a) * g + ymin else pv rest x (ymin + (b - a) * g)

/-- Functional form of the inverse loop's remapping on
`(ymin, ymin + rise s]`. -/
def piv : List (ℚ × ℚ × ℚ) → ℚ → ℚ → ℚ
  | [], _, _ => 0
  | (a, b, g) :: rest, z, ymin =>
    if z ≤ ymin + (b - a) * g then (z - ymin) / g + a else piv rest z (ymin + (b - a) * g)

/-- Segment list produced by create_scale for a given interval list, computed
directly from the intervals: each interval contributes its own segment,
preceded by a unit-slope gap segment whenever it starts strictly after the
previous interval's end (`none` is the initial `-inf` previous end). -/
def gapSegsO : Option ℚ → List (ℚ × ℚ × ℚ) → List (ℚ × ℚ × ℚ)
  | _, [] => []
  | none, (a, b, f) :: rest => (a, b, f) :: gapSegsO (some b) rest
  | some p, (a, b, f) :: rest =>
    (if p < a then [(p, a, 1), (a, b, f)] else [(a, b, f)]) ++ gapSegsO (some b) rest

/-- The sum claimed by the spec sentence for C2: the cumulative sum of each
interval's width times its factor. -/
def claimCum : List (ℚ × ℚ × ℚ) → ℚ
  | [] => 0
  | (a, b, f) :: rest => (b - a) * f + claimCum rest

/-- Correction term for C2: total width of the gaps between consecutive
intervals (each mapped at unit slope by the code), threading the previous
end starting from `p`. -/
def gapCum : ℚ → List (ℚ × ℚ × ℚ) → ℚ
  | _, [] => 0
  | p, (a, b, _) :: rest => (a - p) + gapCum b rest

/-- End coordinate of the last interval of a list (0 for the empty list). -/
def lastEnd : List (ℚ × ℚ × ℚ) → ℚ
  | [] => 0
  | [(_, b, _)] => b
  | _ :: t :: rest => lastEnd (t :: rest)

/-- Invariant of buildLoop's accumulators: before the first interval both
lists are empty; afterwards `x0` is a strictly increasing list of at least
two breakpoints ending at the previous end `b`, and `factor` has the same
length, positive entries, and a trailing slope 1. -/
def AccInv : Option ℚ → List ℚ → List ℚ → Prop
  | none, x0, factor => x0 = [] ∧ factor = []
  | some b, x0, factor =>
    2 ≤ x0.length ∧ x0.getLastD 0 = b ∧ List.Chain' (fun p q => p < q) x0 ∧
      factor.length = x0.length ∧ (∀ g ∈ factor, 0 < g) ∧ factor.getLastD 0 = 1

/-! Argument and effect model for the drawing-side functions. -/

/-- Values of the `which` argument: the three documented strings, the stray
"high" string tested by clip_axes, and any other string. -/
inductive WhichArg
  | lower
  | upper
  | both
  | high
  | otherWhich
deriving DecidableEq

/-- Values of the `axis` argument: "x", "y", or any other string. -/
inductive AxisArg
  | xAxis
  | yAxis
  | otherAxis
deriving DecidableEq

/-- The four spine edges of an axes. -/
inductive Edge
  | bottom
  | top
  | left
  | right
deriving DecidableEq

/-- Observable mutations of the axes object. -/
inductive Eff
  | lineAt (p : ℚ × ℚ)
  | spineClip (e : Edge)
  | artistClip
  | setScale (a : AxisArg)
deriving DecidableEq

/-- Kinds of exceptions raised by the module. -/
inductive ErrKind
  | invalidWhich
  | invalidAxis
  | invalidInterval
  | typeError
  | lengthMismatch
  | badType
deriving DecidableEq

/-- A coordinate argument as the module receives it: None, a scalar number,
or a list of numbers. -/
inductive BreakArg
  | noneArg
  | scalarArg (v : ℚ)
  | listArg (vs : List ℚ)
deriving DecidableEq

/-- Python truthiness of a break-position argument: None, 0 and the empty
list are falsy. -/
def truthy : BreakArg → Bool
  | .noneArg => false
  | .scalarArg v => decide (v ≠ 0)
  | .listArg vs => decide (vs ≠ [])

/-- Python iteration over a break-position argument: only a list is iterable;
a scalar or None raises TypeError. -/
def iterElems : BreakArg → Option (List ℚ)
  | .listArg vs => some vs
  | _ => none

/-- Membership test mirroring Python's `which in [...]`. -/
def whichIn (w : WhichArg) (l : List WhichArg) : Bool := decide (w ∈ l)

/-- Sequencing of two effectful steps: a raised exception in the first step
keeps its trace and skips the second. -/
def seqEff (r s : List Eff × Option ErrKind) : List Eff × Option ErrKind :=
  match r with
  | (es, some e) => (es, some e)
  | (es, none) => (es ++ s.1, s.2)

/-- Diagonal affine model of an axes' coordinate stack: data-to-display is
`(sx * x + tx, sy * y + ty)` and the figure's dpi_scale_trans scales inches
by `dpi`. -/
structure AxCtx where
  sx : ℚ
  sy : ℚ
  tx : ℚ
  ty : ℚ
  dpi : ℚ
deriving DecidableEq

/-- offset_data_point (lines 157-203): data to display, add the physical
offset `(dxPt/72, dyPt/72)` inches scaled by dpi, and invert back to data
coordinates. -/
def offset_data_point (c : AxCtx) (x y dxPt dyPt : ℚ) : ℚ × ℚ :=
  (((c.sx * x + c.tx) + dxPt / 72 * c.dpi - c.tx) / c.sx,
   ((c.sy * y + c.ty) + dyPt / 72 * c.dpi - c.ty) / c.sy)

/-- get_broken_points (lines 206-272): the four marker vertices at `(x, y)`,
the half-gap applied along the chosen axis, or an invalid-argument error. -/
def get_broken_points (c : AxCtx) (x y : ℚ) (axis : AxisArg) (gap dx dy : ℚ) :
    Except ErrKind (List (ℚ × ℚ)) :=
  if ¬ (axis = .xAxis ∨ axis = .yAxis) then .error .invalidAxis
  else
    let gx := if axis = .xAxis then gap / 2 else 0
    let gy := if axis = .xAxis then 0 else gap / 2
    .ok [offset_data_point c x y (-gx - dx) (-gy - dy),
         offset_data_point c x y (-gx + dx) (-gy + dy),
         offset_data_point c x y (gx - dx) (gy - dy),
         offset_data_point c x y (gx + dx) (gy + dy)]

/-- xy2points (lines 275-335), mirroring the source's control flow: the
equal-length assertion on two lists runs first (AssertionError on
mismatch), then the three scalar/list return branches; two equal-length
lists fall through every return and hit the final `raise ValueError`, as
does any None argument. -/
def xy2points : BreakArg → BreakArg → Except ErrKind (List (ℚ × ℚ))
  | .listArg xs, .listArg ys =>
    if xs.length = ys.length then .error .badType else .error .lengthMismatch
  | .scalarArg a, .scalarArg b => .ok [(a, b)]
  | .listArg xs, .scalarArg b => .ok (xs.map fun v => (v, b))
  | .scalarArg a, .listArg ys => .ok (ys.map fun v => (a, v))
  | _, _ => .error .badType

/-- add_broken_line (lines 338-418): check the axis, normalize the
coordinates through xy2points, then draw one marker pair per point (the
drawn Line2D pairs are summarized as one lineAt effect per point; marker
geometry itself is get_broken_points). -/
def add_broken_line (x y : BreakArg) (axis : AxisArg) : List Eff × Option ErrKind :=
  if ¬ (axis = .xAxis ∨ axis = .yAxis) then ([], some .invalidAxis)
  else
    match xy2points x y with
    | .error e => ([], some e)
    | .ok pts => (pts.map fun p => Eff.lineAt p, none)

/-- scale_axis (lines 127-154): check the axis, run create_scale (whose
ValueError propagates before any scale is installed), then install the
scale. -/
def scale_axis (interval : List (ℚ × ℚ × ℚ)) (axis : AxisArg) : List Eff × Option ErrKind :=
  if ¬ (axis = .xAxis ∨ axis = .yAxis) then ([], some .invalidAxis)
  else
    match buildScale interval with
    | none => ([], some .invalidInterval)
    | some _ => ([Eff.setScale axis], none)

/-- Chunking `[lst[i:i+2] for i in range(0, len(lst), 2)]` of
get_axes_clip_path for the even-length lists it builds. -/
def pairUp : List ℚ → List (ℚ × ℚ)
  | a :: b :: rest => (a, b) :: pairUp rest
  | _ => []

/-- One closed rectangle of the whole-axes clip grid. -/
structure Rect where
  p0 : ℚ × ℚ
  p1 : ℚ × ℚ
  p2 : ℚ × ℚ
  p3 : ℚ × ℚ
deriving DecidableEq

/-- get_axes_clip_path (lines 504-566): iterate the x and y break positions
(TypeError when an argument is not a list), cut the axis ranges at each
break with the half-gap offsets, pair the cut points, and emit one closed
rectangle per grid cell. -/
def get_axes_clip_path (c : AxCtx) (xlim ylim : ℚ × ℚ) (x y : BreakArg) (gap : ℚ) :
    Except ErrKind (List Rect) :=
  match iterElems x with
  | none => .error .typeError
  | some xs =>
    match iterElems y with
    | none => .error .typeError
    | some ys =>
      let xlst := xlim.1 ::
        (xs.flatMap fun v =>
          [(offset_data_point c v 0 (-(gap / 2)) 0).1,
           (offset_data_point c v 0 (gap / 2) 0).1]) ++ [xlim.2]
      let ylst := ylim.1 ::
        (ys.flatMap fun v =>
          [(offset_data_point c 0 v 0 (-(gap / 2))).2,
           (offset_data_point c 0 v 0 (gap / 2)).2]) ++ [ylim.2]
      .ok ((pairUp xlst).flatMap fun q =>
        (pairUp ylst).map fun r => ⟨(q.1, r.1), (q.2, r.1), (q.2, r.2), (q.1, r.2)⟩)

/-- add_broken_line_in_axis (lines 604-674): check `which`, then for each
truthy direction draw markers on the selected edges at the axis limits,
in source order (bottom, top, left, right). -/
def add_broken_line_in_axis (xlims ylims : ℚ × ℚ) (x y : BreakArg) (which : WhichArg) :
    List Eff × Option ErrKind :=
  if ¬ (whichIn which [.lower, .upper, .both] = true) then ([], some .invalidWhich)
  else
    seqEff
      (if truthy x then
        seqEff
          (if whichIn which [.lower, .both] then add_broken_line x (.scalarArg ylims.1) .xAxis
           else ([], none))
          (if whichIn which [.upper, .both] then add_broken_line x (.scalarArg ylims.2) .xAxis
           else ([], none))
      else ([], none))
      (if truthy y then
        seqEff
          (if whichIn which [.lower, .both] then add_broken_line (.scalarArg xlims.1) y .yAxis
           else ([], none))
          (if whichIn which [.upper, .both] then add_broken_line (.scalarArg xlims.2) y .yAxis
           else ([], none))
      else ([], none))

/-- clip_axes (lines 677-758): check `which`; for each truthy direction
install per-edge spine clip paths — note the upper branches test
`which in ["high", "both"]` in the source; finally, when `axes_clip` is
set, build the whole-axes grid path (which raises TypeError on non-list
break arguments) and clip all non-spine artists with it. -/
def clip_axes (c : AxCtx) (xlims ylims : ℚ × ℚ) (x y : BreakArg) (which : WhichArg)
    (axesClip : Bool) (gap : ℚ) : List Eff × Option ErrKind :=
  if ¬ (whichIn which [.lower, .upper, .both] = true) then ([], some .invalidWhich)
  else
    let ex := if truthy x then
        (if whichIn which [.lower, .both] then [Eff.spineClip .bottom] else []) ++
        (if whichIn which [.high, .both] then [Eff.spineClip .top] else [])
      else []
    let ey := if truthy y then
        (if whichIn which [.lower, .both] then [Eff.spineClip .left] else []) ++
        (if whichIn which [.high, .both] then [Eff.spineClip .right] else [])
      else []
    if axesClip then
      match get_axes_clip_path c xlims ylims x y gap with
      | .error e => (ex ++ ey, some e)
      | .ok _ => (ex ++ ey ++ [Eff.artistClip], none)
    else (ex ++ ey, none)

/-- broken_and_clip_axes (lines 761-830): add the markers, then apply the
clipping; an exception in the first call skips the second. -/
def broken_and_clip_axes (c : AxCtx) (xlims ylims : ℚ × ℚ) (x y : BreakArg)
    (which : WhichArg) (axesClip : Bool) (gap : ℚ) : List Eff × Option ErrKind :=
  seqEff (add_broken_line_in_axis xlims ylims x y which)
    (clip_axes c xlims ylims x y which axesClip gap)

/-! Helper lemmas about lists, segments and the loop invariants. -/

theorem getLastD_append_cons (l1 : List ℚ) (x : ℚ) (l2 : List ℚ) (d : ℚ) :
    (l1 ++ x :: l2).getLastD d = (x :: l2).getLastD d := by
  induction l1 generalizing d with
  | nil => rfl
  | cons a t ih =>
    simp only [List.cons_append, List.getLastD_cons]
    rw [ih a, List.getLastD_cons]

theorem getLast?_of_getLastD (x0 : List ℚ) (hne : x0 ≠ []) :
    x0.getLast? = some (x0.getLastD 0) := by
  induction x0 with
  | nil => exact absurd rfl hne
  | cons x t ih =>
    cases t with
    | nil => simp
    | cons y r =>
      simp only [List.getLast?_cons_cons, List.getLastD_cons]
      have := ih (by simp)
      simpa only [List.getLastD_cons] using this

theorem insertBeforeLast_cons (x : ℚ) (t : List ℚ) (ht : t ≠ []) (g : ℚ) :
    insertBeforeLast (x :: t) g = x :: insertBeforeLast t g := by
  cases t with
  | nil => exact absurd rfl ht
  | cons y r => rfl

theorem insertBeforeLast_shape (l : List ℚ) (g : ℚ) (h : l ≠ []) :
    insertBeforeLast l g = l.dropLast ++ [g, l.getLastD 0] := by
  induction l with
  | nil => exact absurd rfl h
  | cons x t ih =>
    cases t with
    | nil => rfl
    | cons y r =>
      rw [insertBeforeLast_cons x (y :: r) (by simp) g, ih (by simp)]
      simp [List.getLastD_cons]

theorem segs_nil_right (x0 : List ℚ) : segs x0 [] = [] := by
  cases x0 with
  | nil => rfl
  | cons a t => cases t <;> rfl

theorem segs_cons₂ (a b : ℚ) (t : List ℚ) (g : ℚ) (gs : List ℚ) :
    segs (a :: b :: t) (g :: gs) = (a, b, g) :: segs (b :: t) gs := rfl

theorem segs_app (u : List ℚ) (c : List ℚ) :
    ∀ v d, u ≠ [] → c.length + 1 = u.length →
      segs (u ++ v) (c ++ d) = segs u c ++ segs (u.getLastD 0 :: v) d := by
  induction u generalizing c with
  | nil => intro v d h _; exact absurd rfl h
  | cons x t ih =>
    intro v d _ hlen
    cases t with
    | nil =>
      have hc : c = [] := by
        cases c with
        | nil => rfl
        | cons g cs => simp at hlen
      subst hc
      simp [segs_nil_right]
    | cons y r =>
      cases c with
      | nil => simp at hlen
      | cons g cs =>
        have hlen' : cs.length + 1 = (y :: r).length := by
          simpa using hlen
        simp only [List.cons_append, segs_cons₂]
        have hstep := ih cs v d (by simp) hlen'
        simp only [List.cons_append] at hstep
        rw [hstep]
        simp [List.getLastD_cons]

theorem chained_le_hiOf (s : List (ℚ × ℚ × ℚ)) : ∀ lo, Chained lo s → lo ≤ hiOf lo s := by
  induction s with
  | nil => intro lo _; exact le_refl lo
  | cons seg rest ih =>
    intro lo h
    obtain ⟨a, b, g⟩ := seg
    obtain ⟨ha, hab, _, hc⟩ := h
    subst ha
    simp only [hiOf]
    exact le_trans (le_of_lt hab) (ih b hc)

theorem chained_lt_hiOf (s : List (ℚ × ℚ × ℚ)) : ∀ lo, Chained lo s → s ≠ [] → lo < hiOf lo s := by
  induction s with
  | nil => intro lo _ h; exact absurd rfl h
  | cons seg rest _ =>
    intro lo h _
    obtain ⟨a, b, g⟩ := seg
    obtain ⟨ha, hab, _, hc⟩ := h
    subst ha
    simp only [hiOf]
    exact lt_of_lt_of_le hab (chained_le_hiOf rest b hc)

theorem rise_nonneg (s : List (ℚ × ℚ × ℚ)) : ∀ lo, Chained lo s → 0 ≤ rise s := by
  induction s with
  | nil => intro lo _; simp [rise]
  | cons seg rest ih =>
    intro lo h
    obtain ⟨a, b, g⟩ := seg
    obtain ⟨_, hab, hg, hc⟩ := h
    simp only [rise]
    have h1 : 0 < (b - a) * g := mul_pos (by linarith) hg
    have h2 : 0 ≤ rise rest := ih b hc
    linarith

theorem rise_pos (s : List (ℚ × ℚ × ℚ)) : ∀ lo, Chained lo s → s ≠ [] → 0 < rise s := by
  intro lo h hne
  cases s with
  | nil => exact absurd rfl hne
  | cons seg rest =>
    obtain ⟨a, b, g⟩ := seg
    obtain ⟨_, hab, hg, hc⟩ := h
    simp only [rise]
    have h1 : 0 < (b - a) * g := mul_pos (by linarith) hg
    have h2 : 0 ≤ rise rest := rise_nonneg rest b hc
    linarith

theorem hiOf_append (s t : List (ℚ × ℚ × ℚ)) : ∀ lo, hiOf lo (s ++ t) = hiOf (hiOf lo s) t := by
  induction s with
  | nil => intro lo; rfl
  | cons seg rest ih =>
    intro lo
    obtain ⟨a, b, g⟩ := seg
    simp only [List.cons_append, hiOf]
    exact ih b

theorem chained_append_left (s t : List (ℚ × ℚ × ℚ)) :
    ∀ lo, Chained lo (s ++ t) → Chained lo s := by
  induction s with
  | nil => intro lo _; trivial
  | cons seg rest ih =>
    intro lo h
    obtain ⟨a, b, g⟩ := seg
    obtain ⟨ha, hab, hg, hc⟩ := h
    exact ⟨ha, hab, hg, ih b hc⟩

theorem chained_append_right (s t : List (ℚ × ℚ × ℚ)) :
    ∀ lo, Chained lo (s ++ t) → Chained (hiOf lo s) t := by
  induction s with
  | nil => intro lo h; exact h
  | cons seg rest ih =>
    intro lo h
    obtain ⟨a, b, g⟩ := seg
    obtain ⟨ha, _, _, hc⟩ := h
    subst ha
    simp only [hiOf]
    exact ih b hc

theorem pv_bounds (s : List (ℚ × ℚ × ℚ)) :
    ∀ lo x ymin, Chained lo s → lo < x → x ≤ hiOf lo s →
      ymin < pv s x ymin ∧ pv s x ymin ≤ ymin + rise s := by
  induction s with
  | nil =>
    intro lo x ymin _ hlt hle
    exact absurd (lt_of_lt_of_le hlt hle) (lt_irrefl lo)
  | cons seg rest ih =>
    intro lo x ymin h hlt hle
    obtain ⟨a, b, g⟩ := seg
    obtain ⟨ha, hab, hg, hc⟩ := h
    subst ha
    simp only [hiOf] at hle
    simp only [pv, rise]
    by_cases hxb : x ≤ b
    · rw [if_pos hxb]
      constructor
      · nlinarith
      · have : 0 ≤ rise rest := rise_nonneg rest b hc
        nlinarith
    · rw [if_neg hxb]
      push_neg at hxb
      have := ih b x (ymin + (b - a) * g) hc hxb hle
      constructor
      · nlinarith [this.1]
      · linarith [this.2]

theorem pv_mono (s : List (ℚ × ℚ × ℚ)) :
    ∀ lo x1 x2 ymin, Chained lo s → lo < x1 → x1 < x2 → x2 ≤ hiOf lo s →
      pv s x1 ymin < pv s x2 ymin := by
  induction s with
  | nil =>
    intro lo x1 x2 ymin _ h1 h2 h3
    exact absurd (lt_of_lt_of_le (lt_trans h1 h2) h3) (lt_irrefl lo)
  | cons seg rest ih =>
    intro lo x1 x2 ymin h h1 h2 h3
    obtain ⟨a, b, g⟩ := seg
    obtain ⟨ha, hab, hg, hc⟩ := h
    subst ha
    simp only [hiOf] at h3
    simp only [pv]
    by_cases hx2 : x2 ≤ b
    · have hx1 : x1 ≤ b := le_of_lt (lt_of_lt_of_le h2 hx2)
      rw [if_pos hx1, if_pos hx2]
      nlinarith
    · rw [if_neg hx2]
      push_neg at hx2
      by_cases hx1 : x1 ≤ b
      · rw [if_pos hx1]
        have := (pv_bounds rest b x2 (ymin + (b - a) * g) hc hx2 h3).1
        nlinarith
      · rw [if_neg hx1]
        push_neg at hx1
        exact ih b x1 x2 (ymin + (b - a) * g) hc hx1 h2 h3

theorem pv_initial (s1 : List (ℚ × ℚ × ℚ)) :
    ∀ s2 lo ymin, Chained lo s1 → s1 ≠ [] →
      pv (s1 ++ s2) (hiOf lo s1) ymin = ymin + rise s1 := by
  induction s1 with
  | nil => intro s2 lo ymin _ hne; exact absurd rfl hne
  | cons seg rest ih =>
    intro s2 lo ymin h _
    obtain ⟨a, b, g⟩ := seg
    obtain ⟨ha, hab, hg, hc⟩ := h
    subst ha
    simp only [hiOf, List.cons_append, pv, rise]
    cases hrest : rest with
    | nil =>
      subst hrest
      simp only [hiOf]
      rw [if_pos (le_refl b)]
      simp [rise]
      ring
    | cons seg2 rest2 =>
      have hne2 : rest ≠ [] := by rw [hrest]; simp
      rw [← hrest]
      have hbhi : b < hiOf b rest := chained_lt_hiOf rest b hc hne2
      rw [if_neg (not_le.mpr hbhi)]
      show pv (rest ++ s2) (hiOf b rest) (ymin + (b - a) * g) = ymin + ((b - a) * g + rise rest)
      rw [ih s2 b (ymin + (b - a) * g) hc hne2]
      ring

theorem pv_piv (s : List (ℚ × ℚ × ℚ)) :
    ∀ lo x ymin, Chained lo s → lo < x → x ≤ hiOf lo s →
      piv s (pv s x ymin) ymin = x := by
  induction s with
  | nil =>
    intro lo x ymin _ hlt hle
    exact absurd (lt_of_lt_of_le hlt hle) (lt_irrefl lo)
  | cons seg rest ih =>
    intro lo x ymin h hlt hle
    obtain ⟨a, b, g⟩ := seg
    obtain ⟨ha, hab, hg, hc⟩ := h
    subst ha
    simp only [hiOf] at hle
    simp only [pv, piv]
    by_cases hxb : x ≤ b
    · rw [if_pos hxb]
      have hcond : (x - a) * g + ymin ≤ ymin + (b - a) * g := by nlinarith
      rw [if_pos hcond]
      field_simp
    · rw [if_neg hxb]
      push_neg at hxb
      have hlow := (pv_bounds rest b x (ymin + (b - a) * g) hc hxb hle).1
      have hcond : ¬ pv rest x (ymin + (b - a) * g) ≤ ymin + (b - a) * g :=
        not_le.mpr hlow
      rw [if_neg hcond]
      exact ih b x (ymin + (b - a) * g) hc hxb hle

theorem piv_pv (s : List (ℚ × ℚ × ℚ)) :
    ∀ lo z ymin, Chained lo s → ymin < z → z ≤ ymin + rise s →
      (lo < piv s z ymin ∧ piv s z ymin ≤ hiOf lo s) ∧ pv s (piv s z ymin) ymin = z := by
  induction s with
  | nil =>
    intro lo z ymin _ h1 h2
    simp only [rise] at h2
    exact absurd (lt_of_lt_of_le h1 (by linarith)) (lt_irrefl ymin)
  | cons seg rest ih =>
    intro lo z ymin h h1 h2
    obtain ⟨a, b, g⟩ := seg
    obtain ⟨ha, hab, hg, hc⟩ := h
    subst ha
    simp only [rise] at h2
    simp only [hiOf, piv]
    by_cases hz : z ≤ ymin + (b - a) * g
    · rw [if_pos hz]
      have hgt : a < (z - ymin) / g + a := by
        have : 0 < (z - ymin) / g := div_pos (by linarith) hg
        linarith
      have hleb : (z - ymin) / g + a ≤ b := by
        have : (z - ymin) / g ≤ b - a := by
          rw [div_le_iff₀ hg]
          nlinarith
        linarith
      refine ⟨⟨hgt, le_trans hleb (chained_le_hiOf rest b hc)⟩, ?_⟩
      simp only [pv]
      rw [if_pos hleb]
      field_simp
      ring
    · rw [if_neg hz]
      push_neg at hz
      have h2' : z ≤ ymin + (b - a) * g + rise rest := by linarith
      have := ih b z (ymin + (b - a) * g) hc hz h2'
      obtain ⟨⟨hlow, hhigh⟩, hpv⟩ := this
      refine ⟨⟨lt_trans hab hlow, hhigh⟩, ?_⟩
      simp only [pv]
      rw [if_neg (not_le.mpr hlow)]
      exact hpv

theorem forwardLoop_eq (s : List (ℚ × ℚ × ℚ)) :
    ∀ lo x res ymin, Chained lo s →
      forwardLoop s x res ymin =
        ((if lo < x ∧ x ≤ hiOf lo s then pv s x ymin else res), ymin + rise s) := by
  induction s with
  | nil =>
    intro lo x res ymin _
    have hno : ¬ (lo < x ∧ x ≤ hiOf lo []) := by
      rintro ⟨h1, h2⟩
      simp only [hiOf] at h2
      exact absurd (lt_of_lt_of_le h1 h2) (lt_irrefl lo)
    simp [forwardLoop, rise, hno]
  | cons seg rest ih =>
    intro lo x res ymin h
    obtain ⟨a, b, g⟩ := seg
    obtain ⟨ha, hab, hg, hc⟩ := h
    subst ha
    simp only [forwardLoop, hiOf, rise]
    rw [ih b x _ _ hc]
    have hb_hi : b ≤ hiOf b rest := chained_le_hiOf rest b hc
    simp only [Prod.mk.injEq]
    refine ⟨?_, by ring⟩
    by_cases h1 : b < x ∧ x ≤ hiOf b rest
    · rw [if_pos h1]
      have hcond : a < x ∧ x ≤ hiOf b rest := ⟨lt_trans hab h1.1, h1.2⟩
      rw [if_pos hcond]
      simp only [pv]
      rw [if_neg (not_le.mpr h1.1)]
    · rw [if_neg h1]
      by_cases h2 : a < x ∧ x ≤ b
      · have hcond : a < x ∧ x ≤ hiOf b rest := ⟨h2.1, le_trans h2.2 hb_hi⟩
        rw [if_pos hcond, if_pos h2]
        simp only [pv]
        rw [if_pos h2.2]
      · rw [if_neg h2]
        have hcond : ¬ (a < x ∧ x ≤ hiOf b rest) := by
          rintro ⟨hax, hxhi⟩
          rcases not_and_or.mp h1 with hnb | hnle
          · push_neg at hnb
            exact h2 ⟨hax, hnb⟩
          · exact hnle hxhi
        rw [if_neg hcond]

theorem inverseLoop_eq (s : List (ℚ × ℚ × ℚ)) :
    ∀ lo z res ymin, Chained lo s →
      inverseLoop s z res ymin =
        ((if ymin < z ∧ z ≤ ymin + rise s then piv s z ymin else res), ymin + rise s) := by
  induction s with
  | nil =>
    intro lo z res ymin _
    have hno : ¬ (ymin < z ∧ z ≤ ymin) := by
      rintro ⟨h1, h2⟩
      exact absurd (lt_of_lt_of_le h1 h2) (lt_irrefl ymin)
    simp [inverseLoop, rise, hno]
  | cons seg rest ih =>
    intro lo z res ymin h
    obtain ⟨a, b, g⟩ := seg
    obtain ⟨_, hab, hg, hc⟩ := h
    simp only [inverseLoop, rise]
    rw [ih b z _ _ hc]
    have hrn : 0 ≤ rise rest := rise_nonneg rest b hc
    have hseg : 0 < (b - a) * g := mul_pos (by linarith) hg
    simp only [Prod.mk.injEq]
    refine ⟨?_, by ring⟩
    by_cases h1 : ymin + (b - a) * g < z ∧ z ≤ ymin + (b - a) * g + rise rest
    · rw [if_pos h1]
      have hcond : ymin < z ∧ z ≤ ymin + ((b - a) * g + rise rest) :=
        ⟨by linarith [h1.1], by linarith [h1.2]⟩
      rw [if_pos hcond]
      simp only [piv]
      rw [if_neg (not_le.mpr h1.1)]
    · rw [if_neg h1]
      by_cases h2 : ymin < z ∧ z ≤ ymin + (b - a) * g
      · rw [if_pos h2]
        have hcond : ymin < z ∧ z ≤ ymin + ((b - a) * g + rise rest) :=
          ⟨h2.1, by linarith [h2.2]⟩
        rw [if_pos hcond]
        simp only [piv]
        rw [if_pos h2.2]
      · rw [if_neg h2]
        have hcond : ¬ (ymin < z ∧ z ≤ ymin + ((b - a) * g + rise rest)) := by
          rintro ⟨hy, hz2⟩
          rcases not_and_or.mp h1 with hnb | hnle
          · push_neg at hnb
            exact h2 ⟨hy, hnb⟩
          · exact hnle (by linarith)
        rw [if_neg hcond]

theorem buildLoop_none_iff (I : List (ℚ × ℚ × ℚ)) :
    ∀ pb x0 factor, buildLoop I pb x0 factor = none ↔ ¬ validFrom pb I := by
  induction I with
  | nil =>
    intro pb x0 factor
    simp [buildLoop, validFrom]
  | cons t rest ih =>
    intro pb x0 factor
    obtain ⟨a, b, f⟩ := t
    simp only [buildLoop, validFrom]
    by_cases h1 : a < b ∧ prevLe pb a
    · rw [if_pos h1]
      by_cases h2 : f ≤ 0
      · rw [if_pos h2]
        constructor
        · rintro _ ⟨_, hf, _⟩
          exact absurd hf (not_lt.mpr h2)
        · intro _; rfl
      · rw [if_neg h2]
        push_neg at h2
        rw [ih (some b) _ _]
        constructor
        · intro hnv hv
          exact hnv hv.2.2
        · intro hn hrest
          exact hn ⟨h1, h2, hrest⟩
    · rw [if_neg h1]
      constructor
      · rintro _ ⟨hv, _⟩
        exact h1 hv
      · intro _; rfl

theorem dropLast_concat_getLastD (l : List ℚ) (h : l ≠ []) :
    l.dropLast ++ [l.getLastD 0] = l := by
  induction l with
  | nil => exact absurd rfl h
  | cons x t ih =>
    cases t with
    | nil => rfl
    | cons y r =>
      simp only [List.dropLast_cons₂, List.getLastD_cons, List.cons_append]
      rw [show r.getLastD y = (y :: r).getLastD 0 from (List.getLastD_cons 0 y r).symm]
      rw [ih (by simp)]

theorem accInv_step (pb : Option ℚ) (x0 factor : List ℚ) (a b f : ℚ)
    (hacc : AccInv pb x0 factor) (hab : a < b) (hle : prevLe pb a) (hf : 0 < f) :
    AccInv (some b)
      (if prevLt pb a then x0 ++ [a, b] else x0 ++ [b])
      (if prevLt pb a then factor ++ [f, 1] else insertBeforeLast factor f) := by
  cases pb with
  | none =>
    obtain ⟨hx0, hfac⟩ := hacc
    subst hx0; subst hfac
    have htr : prevLt (none : Option ℚ) a := trivial
    rw [if_pos htr, if_pos htr]
    refine ⟨by simp, by simp, ?_, by simp, ?_, by simp⟩
    · simpa [List.chain'_pair] using hab
    · intro g hg
      simp at hg
      rcases hg with h | h
      · subst h; exact hf
      · subst h; norm_num
  | some p =>
    obtain ⟨hlen, hlast, hch, hflen, hfpos, hf1⟩ := hacc
    have hle' : p ≤ a := hle
    have hx0ne : x0 ≠ [] := by
      intro hx
      rw [hx] at hlen
      simp at hlen
    have hfacne : factor ≠ [] := by
      intro hx
      rw [hx] at hflen
      simp at hflen
      omega
    by_cases hpa : p < a
    · have hplt : prevLt (some p) a := hpa
      rw [if_pos hplt, if_pos hplt]
      refine ⟨?_, ?_, ?_, ?_, ?_, ?_⟩
      · rw [List.length_append]
        simp
      · rw [show x0 ++ [a, b] = x0 ++ a :: [b] from rfl, getLastD_append_cons]
        simp [List.getLastD_cons]
      · rw [List.chain'_append]
        refine ⟨hch, List.chain'_pair.mpr hab, ?_⟩
        intro u hu v hv
        rw [getLast?_of_getLastD x0 hx0ne] at hu
        rw [Option.mem_def, Option.some.injEq] at hu
        rw [List.head?_cons, Option.mem_def, Option.some.injEq] at hv
        subst hu; subst hv
        rw [hlast]
        exact hpa
      · simp [List.length_append, hflen]
      · intro g hg
        rcases List.mem_append.mp hg with h | h
        · exact hfpos g h
        · simp at h
          rcases h with h | h
          · subst h; exact hf
          · subst h; norm_num
      · rw [show factor ++ [f, 1] = factor ++ f :: [1] from rfl, getLastD_append_cons]
        simp [List.getLastD_cons]
    · have hplt : ¬ prevLt (some p) a := hpa
      rw [if_neg hplt, if_neg hplt]
      have hpa' : p = a := le_antisymm hle' (not_lt.mp hpa)
      refine ⟨?_, ?_, ?_, ?_, ?_, ?_⟩
      · rw [List.length_append]
        simp only [List.length_cons, List.length_nil]
        omega
      · rw [show x0 ++ [b] = x0 ++ b :: [] from rfl, getLastD_append_cons]
        simp
      · rw [List.chain'_append]
        refine ⟨hch, List.chain'_singleton b, ?_⟩
        intro u hu v hv
        rw [getLast?_of_getLastD x0 hx0ne] at hu
        rw [Option.mem_def, Option.some.injEq] at hu
        rw [List.head?_cons, Option.mem_def, Option.some.injEq] at hv
        subst hu; subst hv
        rw [hlast, hpa']
        exact hab
      · rw [insertBeforeLast_shape factor f hfacne]
        simp [List.length_append, List.length_dropLast, hflen]
        omega
      · rw [insertBeforeLast_shape factor f hfacne]
        intro g hg
        rcases List.mem_append.mp hg with h | h
        · exact hfpos g (List.dropLast_subset factor h)
        · simp only [List.mem_cons, List.not_mem_nil, or_false] at h
          rcases h with h | h
          · subst h; exact hf
          · subst h
            rw [hf1]
            norm_num
      · rw [insertBeforeLast_shape factor f hfacne]
        rw [show factor.dropLast ++ [f, factor.getLastD 0] =
              factor.dropLast ++ f :: [factor.getLastD 0] from rfl, getLastD_append_cons]
        rw [List.getLastD_cons, List.getLastD_cons, List.getLastD_nil]
        exact hf1

theorem buildLoop_acc (I : List (ℚ × ℚ × ℚ)) :
    ∀ pb x0 factor x0' factor', AccInv pb x0 factor →
      buildLoop I pb x0 factor = some (x0', factor') →
      (I = [] ∧ x0' = x0 ∧ factor' = factor) ∨ ∃ b', AccInv (some b') x0' factor' := by
  induction I with
  | nil =>
    intro pb x0 factor x0' factor' _ hbl
    simp only [buildLoop, Option.some.injEq, Prod.mk.injEq] at hbl
    exact Or.inl ⟨rfl, hbl.1.symm, hbl.2.symm⟩
  | cons t rest ih =>
    intro pb x0 factor x0' factor' hacc hbl
    obtain ⟨a, b, f⟩ := t
    simp only [buildLoop] at hbl
    by_cases h1 : a < b ∧ prevLe pb a
    · rw [if_pos h1] at hbl
      by_cases h2 : f ≤ 0
      · rw [if_pos h2] at hbl
        exact absurd hbl (by simp)
      · rw [if_neg h2] at hbl
        push_neg at h2
        have hacc' := accInv_step pb x0 factor a b f hacc h1.1 h1.2 h2
        rcases ih _ _ _ _ _ hacc' hbl with ⟨_, hx, hfe⟩ | ⟨b', hb⟩
        · subst hx; subst hfe
          exact Or.inr ⟨b, hacc'⟩
        · exact Or.inr ⟨b', hb⟩
    · rw [if_neg h1] at hbl
      exact absurd hbl (by simp)

theorem segs_nil_left (gs : List ℚ) : segs [] gs = [] := by cases gs <;> rfl

theorem segs_short (b : ℚ) (gs : List ℚ) : segs [b] gs = [] := by cases gs <;> rfl

theorem segs_chained (x0 : List ℚ) :
    ∀ factor, List.Chain' (fun p q => p < q) x0 → (∀ g ∈ factor, 0 < g) →
      Chained (x0.headD 0) (segs x0 factor) := by
  induction x0 with
  | nil => intro factor _ _; rw [segs_nil_left]; trivial
  | cons a t ih =>
    intro factor hch hpos
    cases t with
    | nil => rw [segs_short]; trivial
    | cons b r =>
      cases factor with
      | nil => rw [segs_nil_right]; trivial
      | cons g gs =>
        rw [segs_cons₂, List.headD_cons]
        have h1 := List.chain'_cons.mp hch
        have hrec := ih gs h1.2 (fun q hq => hpos q (List.mem_cons_of_mem _ hq))
        rw [List.headD_cons] at hrec
        exact ⟨rfl, h1.1, hpos g (List.mem_cons_self _ _), hrec⟩

theorem segs_hi (x0 : List ℚ) :
    ∀ factor, 2 ≤ x0.length → x0.length ≤ factor.length + 1 →
      hiOf (x0.headD 0) (segs x0 factor) = x0.getLastD 0 := by
  induction x0 with
  | nil => intro factor h _; simp at h
  | cons a t ih =>
    intro factor h hlen
    cases t with
    | nil => simp at h
    | cons b r =>
      cases factor with
      | nil => simp at hlen
      | cons g gs =>
        rw [segs_cons₂, List.headD_cons]
        simp only [hiOf]
        cases r with
        | nil =>
          rw [segs_short]
          simp only [hiOf]
          simp [List.getLastD_cons]
        | cons c r2 =>
          have hrec := ih gs (by simp) (by
            simp only [List.length_cons] at hlen ⊢
            omega)
          rw [List.headD_cons] at hrec
          rw [hrec]
          simp only [List.getLastD_cons]

theorem segs_ne_of_len (x0 factor : List ℚ) (hlen : 2 ≤ x0.length)
    (hflen : factor.length = x0.length) : segs x0 factor ≠ [] := by
  cases x0 with
  | nil => simp at hlen
  | cons a t =>
    cases t with
    | nil => simp at hlen
    | cons b r =>
      cases factor with
      | nil => simp at hflen
      | cons g gs =>
        rw [segs_cons₂]
        simp

theorem segs_head_eq (x0 factor : List ℚ) (a b g : ℚ) (rest : List (ℚ × ℚ × ℚ))
    (h : segs x0 factor = (a, b, g) :: rest) : x0.headD 0 = a := by
  cases x0 with
  | nil =>
    rw [segs_nil_left] at h
    exact absurd h (by simp)
  | cons p t =>
    cases t with
    | nil =>
      rw [segs_short] at h
      exact absurd h (by simp)
    | cons q r =>
      cases factor with
      | nil =>
        rw [segs_nil_right] at h
        exact absurd h (by simp)
      | cons u us =>
        rw [segs_cons₂] at h
        rw [List.headD_cons]
        have := (List.cons.injEq _ _ _ _).mp h
        have h2 := this.1
        exact (Prod.mk.injEq _ _ _ _).mp h2 |>.1

theorem gapSegsO_ne_nil (pb : Option ℚ) (t : ℚ × ℚ × ℚ) (rest : List (ℚ × ℚ × ℚ)) :
    gapSegsO pb (t :: rest) ≠ [] := by
  obtain ⟨a, b, f⟩ := t
  cases pb with
  | none => simp [gapSegsO]
  | some p => by_cases hpa : p < a <;> simp [gapSegsO, hpa]

theorem gapSegsO_nil (pb : Option ℚ) : gapSegsO pb [] = [] := by cases pb <;> rfl

theorem gapSegsO_cons_none (a b f : ℚ) (rest : List (ℚ × ℚ × ℚ)) :
    gapSegsO none ((a, b, f) :: rest) = (a, b, f) :: gapSegsO (some b) rest := rfl

theorem gapSegsO_cons_some (p a b f : ℚ) (rest : List (ℚ × ℚ × ℚ)) :
    gapSegsO (some p) ((a, b, f) :: rest) =
      (if p < a then [(p, a, 1), (a, b, f)] else [(a, b, f)]) ++ gapSegsO (some b) rest := rfl

theorem hiOf_nil (lo : ℚ) : hiOf lo [] = lo := rfl

theorem hiOf_cons (lo a b g : ℚ) (rest : List (ℚ × ℚ × ℚ)) :
    hiOf lo ((a, b, g) :: rest) = hiOf b rest := rfl

theorem lastEnd_single (a b f : ℚ) : lastEnd [(a, b, f)] = b := rfl

theorem lastEnd_cons₂ (t t2 : ℚ × ℚ × ℚ) (rest : List (ℚ × ℚ × ℚ)) :
    lastEnd (t :: t2 :: rest) = lastEnd (t2 :: rest) := rfl

theorem gapSegsO_append (A : List (ℚ × ℚ × ℚ)) :
    ∀ B pb, A ≠ [] →
      gapSegsO pb (A ++ B) = gapSegsO pb A ++ gapSegsO (some (lastEnd A)) B := by
  induction A with
  | nil => intro B pb h; exact absurd rfl h
  | cons t rest ih =>
    intro B pb _
    obtain ⟨a, b, f⟩ := t
    cases rest with
    | nil =>
      cases pb with
      | none =>
        simp only [List.singleton_append, gapSegsO_cons_none, gapSegsO_nil, lastEnd_single,
          List.cons_append, List.nil_append]
      | some p =>
        by_cases hpa : p < a <;>
          simp only [List.singleton_append, gapSegsO_cons_some, gapSegsO_nil, lastEnd_single,
            if_pos, if_neg, hpa, if_true, if_false, List.cons_append, List.nil_append,
            List.append_nil, List.append_assoc]
    | cons t2 rest2 =>
      have hrec := ih B (some b) (by simp)
      cases pb with
      | none =>
        simp only [List.cons_append, gapSegsO_cons_none, lastEnd_cons₂] at hrec ⊢
        rw [hrec]
      | some p =>
        by_cases hpa : p < a <;>
          · simp only [List.cons_append, gapSegsO_cons_some, if_pos, if_neg, hpa, if_true,
              if_false, lastEnd_cons₂, List.append_assoc] at hrec ⊢
            rw [hrec]

theorem hiOf_gapSegsO (A : List (ℚ × ℚ × ℚ)) :
    ∀ pb lo, A ≠ [] → hiOf lo (gapSegsO pb A) = lastEnd A := by
  induction A with
  | nil => intro pb lo h; exact absurd rfl h
  | cons t rest ih =>
    intro pb lo _
    obtain ⟨a, b, f⟩ := t
    cases rest with
    | nil =>
      cases pb with
      | none =>
        simp only [gapSegsO_cons_none, gapSegsO_nil, hiOf_cons, hiOf_nil, lastEnd_single]
      | some p =>
        by_cases hpa : p < a <;>
          simp only [gapSegsO_cons_some, gapSegsO_nil, if_pos, if_neg, hpa, if_true, if_false,
            List.append_nil, List.cons_append, List.nil_append, hiOf_cons, hiOf_nil,
            lastEnd_single]
    | cons t2 rest2 =>
      have hrec := ih (some b) b (by simp)
      cases pb with
      | none =>
        simp only [gapSegsO_cons_none, hiOf_cons, lastEnd_cons₂]
        exact hrec
      | some p =>
        by_cases hpa : p < a <;>
          · simp only [gapSegsO_cons_some, if_pos, if_neg, hpa, if_true, if_false,
              List.cons_append, List.nil_append, hiOf_cons, lastEnd_cons₂]
            exact hrec

theorem rise_gapSegsO (A : List (ℚ × ℚ × ℚ)) :
    ∀ p, validFrom (some p) A →
      rise (gapSegsO (some p) A) = gapCum p A + claimCum A := by
  induction A with
  | nil => intro p _; simp [gapSegsO_nil, rise, gapCum, claimCum]
  | cons t rest ih =>
    intro p hv
    obtain ⟨a, b, f⟩ := t
    obtain ⟨⟨hab, hpa⟩, hf, hrest⟩ := hv
    have hpa' : p ≤ a := hpa
    have hrec := ih b hrest
    by_cases hlt : p < a
    · simp only [gapSegsO_cons_some, if_pos hlt, List.cons_append, List.nil_append, rise,
        gapCum, claimCum]
      rw [hrec]
      ring
    · have hpe : p = a := le_antisymm hpa' (not_lt.mp hlt)
      subst hpe
      simp only [gapSegsO_cons_some, if_neg hlt, List.cons_append, List.nil_append, rise,
        gapCum, claimCum]
      rw [hrec]
      ring

theorem rise_gapSegsO_none (A : List (ℚ × ℚ × ℚ)) (hv : validSpec A) (hA : A ≠ []) :
    rise (gapSegsO none A) = gapCum (A.headD (0, 0, 0)).1 A + claimCum A := by
  cases A with
  | nil => exact absurd rfl hA
  | cons t rest =>
    obtain ⟨a, b, f⟩ := t
    obtain ⟨⟨hab, _⟩, hf, hrest⟩ := hv
    simp only [gapSegsO_cons_none, rise, List.headD_cons, gapCum, claimCum]
    rw [rise_gapSegsO rest b hrest]
    ring

theorem validFrom_append_left (A : List (ℚ × ℚ × ℚ)) :
    ∀ B pb, validFrom pb (A ++ B) → validFrom pb A := by
  induction A with
  | nil => intro B pb _; trivial
  | cons t rest ih =>
    intro B pb hv
    obtain ⟨a, b, f⟩ := t
    obtain ⟨h1, h2, h3⟩ := hv
    exact ⟨h1, h2, ih B (some b) h3⟩

theorem getD_default_irrel (l : List (ℚ × ℚ × ℚ)) :
    ∀ n d1 d2, n < l.length → l.getD n d1 = l.getD n d2 := by
  induction l with
  | nil => intro n d1 d2 hn; simp at hn
  | cons t rest ih =>
    intro n d1 d2 hn
    cases n with
    | zero => simp
    | succ m =>
      simp only [List.getD_cons_succ]
      exact ih m d1 d2 (by simp at hn; omega)

theorem getLastD_take (l : List (ℚ × ℚ × ℚ)) :
    ∀ n d, n < l.length → (l.take (n + 1)).getLastD d = l.getD n d := by
  induction l with
  | nil => intro n d hn; simp at hn
  | cons t rest ih =>
    intro n d hn
    cases n with
    | zero => simp
    | succ m =>
      simp only [List.take_succ_cons, List.getLastD_cons, List.getD_cons_succ]
      have hm : m < rest.length := by simp at hn; omega
      rw [ih m t hm]
      exact getD_default_irrel rest m t d hm

theorem headD_take (l : List (ℚ × ℚ × ℚ)) (n : ℕ) (d : ℚ × ℚ × ℚ) :
    (l.take (n + 1)).headD d = l.headD d := by
  cases l with
  | nil => simp
  | cons t rest => simp [List.take_succ_cons]

theorem segs_drop_trailing (x0 factor : List ℚ) (hne : x0 ≠ [])
    (hflen : factor.length = x0.length) (hf1 : factor.getLastD 0 = 1) :
    segs x0 factor = segs x0 factor.dropLast := by
  have hfacne : factor ≠ [] := by
    intro h
    rw [h] at hflen
    cases x0 with
    | nil => exact hne rfl
    | cons u t => simp at hflen
  have hshape : factor.dropLast ++ [1] = factor := by
    rw [← hf1]
    exact dropLast_concat_getLastD factor hfacne
  have hclen : factor.dropLast.length + 1 = x0.length := by
    rw [List.length_dropLast, hflen]
    cases x0 with
    | nil => exact absurd rfl hne
    | cons u t => simp
  conv_lhs => rw [← hshape]
  have happ := segs_app x0 factor.dropLast [] [1] hne hclen
  rw [List.append_nil] at happ
  rw [happ, segs_short, List.append_nil]

theorem buildLoop_segs (I : List (ℚ × ℚ × ℚ)) :
    ∀ pb x0 factor x0' factor', AccInv pb x0 factor →
      buildLoop I pb x0 factor = some (x0', factor') →
      segs x0' factor' = segs x0 factor ++ gapSegsO pb I := by
  induction I with
  | nil =>
    intro pb x0 factor x0' factor' _ hbl
    simp only [buildLoop, Option.some.injEq, Prod.mk.injEq] at hbl
    rw [← hbl.1, ← hbl.2, gapSegsO_nil, List.append_nil]
  | cons t rest ih =>
    intro pb x0 factor x0' factor' hacc hbl
    obtain ⟨a, b, f⟩ := t
    simp only [buildLoop] at hbl
    by_cases h1 : a < b ∧ prevLe pb a
    swap
    · rw [if_neg h1] at hbl
      exact absurd hbl (by simp)
    rw [if_pos h1] at hbl
    by_cases h2 : f ≤ 0
    · rw [if_pos h2] at hbl
      exact absurd hbl (by simp)
    rw [if_neg h2] at hbl
    push_neg at h2
    have hacc' := accInv_step pb x0 factor a b f hacc h1.1 h1.2 h2
    have hrec := ih _ _ _ _ _ hacc' hbl
    rw [hrec]
    cases pb with
    | none =>
      obtain ⟨hx0, hfac⟩ := hacc
      subst hx0; subst hfac
      have htr : prevLt (none : Option ℚ) a := trivial
      rw [if_pos htr, if_pos htr, gapSegsO_cons_none, segs_nil_left]
      simp only [List.nil_append]
      rw [segs_cons₂, segs_short]
      simp only [List.cons_append, List.nil_append]
    | some p =>
      obtain ⟨hlen, hlast, hch, hflen, hfpos, hf1⟩ := hacc
      have hx0ne : x0 ≠ [] := by
        intro hx
        rw [hx] at hlen
        simp at hlen
      have hfacne : factor ≠ [] := by
        intro hx
        rw [hx] at hflen
        simp at hflen
        omega
      have hdl : factor.dropLast ++ [1] = factor := by
        rw [← hf1]
        exact dropLast_concat_getLastD factor hfacne
      have hclen : factor.dropLast.length + 1 = x0.length := by
        rw [List.length_dropLast, hflen]
        omega
      have hs0 : segs x0 factor = segs x0 factor.dropLast :=
        segs_drop_trailing x0 factor hx0ne hflen hf1
      rw [gapSegsO_cons_some]
      by_cases hpa : p < a
      · have hplt : prevLt (some p) a := hpa
        rw [if_pos hplt, if_pos hplt, if_pos hpa]
        have hfac2 : factor ++ [f, 1] = factor.dropLast ++ [1, f, 1] := by
          conv_lhs => rw [← hdl]
          simp [List.append_assoc]
        rw [hfac2, segs_app x0 factor.dropLast [a, b] [1, f, 1] hx0ne hclen, hlast]
        rw [show segs (p :: [a, b]) [1, f, 1] = [(p, a, 1), (a, b, f)] from by
          rw [show (p :: [a, b]) = p :: a :: [b] from rfl, segs_cons₂, segs_cons₂, segs_short]]
        rw [hs0, List.append_assoc]
      · have hplt : ¬ prevLt (some p) a := hpa
        rw [if_neg hplt, if_neg hplt, if_neg hpa]
        have hple : p ≤ a := h1.2
        have hpe : p = a := le_antisymm hple (not_lt.mp hpa)
        have hfac2 : insertBeforeLast factor f = factor.dropLast ++ [f, 1] := by
          rw [insertBeforeLast_shape factor f hfacne, hf1]
        rw [hfac2, segs_app x0 factor.dropLast [b] [f, 1] hx0ne hclen, hlast, hpe]
        rw [show segs (a :: [b]) [f, 1] = [(a, b, f)] from by
          rw [segs_cons₂, segs_short]]
        rw [hs0, List.append_assoc]

theorem scale_context (I : List (ℚ × ℚ × ℚ)) (x0 factor : List ℚ)
    (hne : I ≠ []) (h : buildScale I = some (x0, factor)) :
    2 ≤ x0.length ∧ factor.length = x0.length ∧ factor.getLastD 0 = 1 ∧
      Chained (x0.headD 0) (segs x0 factor) ∧ segs x0 factor ≠ [] ∧
      hiOf (x0.headD 0) (segs x0 factor) = x0.getLastD 0 ∧
      segs x0 factor = gapSegsO none I := by
  have hacc0 : AccInv none [] [] := ⟨rfl, rfl⟩
  have hsegs := buildLoop_segs I none [] [] x0 factor hacc0 h
  rw [segs_nil_left, List.nil_append] at hsegs
  rcases buildLoop_acc I none [] [] x0 factor hacc0 h with ⟨hI, _, _⟩ | ⟨b', hacc⟩
  · exact absurd hI hne
  obtain ⟨hlen, hlast, hch, hflen, hfpos, hf1⟩ := hacc
  exact ⟨hlen, hflen, hf1, segs_chained x0 factor hch hfpos,
    segs_ne_of_len x0 factor hlen hflen, segs_hi x0 factor hlen (by omega), hsegs⟩

theorem forwardFun_eq (x0 factor : List ℚ) (lo hi : ℚ)
    (hlo : x0.headD 0 = lo) (hhi : x0.getLastD 0 = hi)
    (hch : Chained lo (segs x0 factor))
    (hhi2 : hiOf lo (segs x0 factor) = hi) (x : ℚ) :
    forwardFun x0 factor x =
      if hi < x then (x - hi) * factor.getLastD 0 + (lo + rise (segs x0 factor))
      else if lo < x then pv (segs x0 factor) x lo else x := by
  simp only [forwardFun]
  rw [hlo, hhi, forwardLoop_eq (segs x0 factor) lo x x lo hch]
  by_cases h1 : hi < x
  · rw [if_pos h1, if_pos h1]
  · rw [if_neg h1, if_neg h1]
    by_cases h2 : lo < x
    · have hcond : lo < x ∧ x ≤ hiOf lo (segs x0 factor) := by
        refine ⟨h2, ?_⟩
        rw [hhi2]
        exact not_lt.mp h1
      rw [if_pos hcond, if_pos h2]
    · have hcond : ¬ (lo < x ∧ x ≤ hiOf lo (segs x0 factor)) := fun hc => h2 hc.1
      rw [if_neg hcond, if_neg h2]

theorem inverseFun_eq (x0 factor : List ℚ) (lo hi : ℚ)
    (hlo : x0.headD 0 = lo) (hhi : x0.getLastD 0 = hi)
    (hch : Chained lo (segs x0 factor)) (z : ℚ) :
    inverseFun x0 factor z =
      if lo + rise (segs x0 factor) < z then
        (z - (lo + rise (segs x0 factor))) / factor.getLastD 0 + hi
      else if lo < z then piv (segs x0 factor) z lo else z := by
  simp only [inverseFun]
  rw [hlo, hhi, inverseLoop_eq (segs x0 factor) lo z z lo hch]
  by_cases h1 : lo + rise (segs x0 factor) < z
  · rw [if_pos h1, if_pos h1]
  · rw [if_neg h1, if_neg h1]
    by_cases h2 : lo < z
    · rw [if_pos ⟨h2, not_lt.mp h1⟩, if_pos h2]
    · rw [if_neg (fun hc => h2 (And.left hc)), if_neg h2]

theorem lastEnd_eq_getLastD (A : List (ℚ × ℚ × ℚ)) :
    ∀ d, A ≠ [] → lastEnd A = (A.getLastD d).2.1 := by
  induction A with
  | nil => intro d h; exact absurd rfl h
  | cons t rest ih =>
    intro d _
    obtain ⟨a, b, f⟩ := t
    cases rest with
    | nil => rfl
    | cons t2 rest2 =>
      rw [lastEnd_cons₂, List.getLastD_cons]
      exact ih (a, b, f) (by simp)

theorem lastEnd_take (I : List (ℚ × ℚ × ℚ)) (n : ℕ) (hn : n < I.length) :
    lastEnd (I.take (n + 1)) = (I.getD n (0, 0, 0)).2.1 := by
  have hne : I.take (n + 1) ≠ [] := by
    cases I with
    | nil => simp at hn
    | cons t rest => simp [List.take_succ_cons]
  rw [lastEnd_eq_getLastD (I.take (n + 1)) (0, 0, 0) hne, getLastD_take I n (0, 0, 0) hn]

theorem buildScale_validSpec (I : List (ℚ × ℚ × ℚ)) (x0 factor : List ℚ)
    (h : buildScale I = some (x0, factor)) : validSpec I := by
  by_contra hnv
  have hnone := (buildLoop_none_iff I none [] []).mpr hnv
  rw [show buildLoop I none [] [] = buildScale I from rfl, h] at hnone
  exact absurd hnone (by simp)

theorem forward_at_prefix_end (I : List (ℚ × ℚ × ℚ)) (x0 factor : List ℚ)
    (hne : I ≠ []) (h : buildScale I = some (x0, factor))
    (A B : List (ℚ × ℚ × ℚ)) (hAB : I = A ++ B) (hAne : A ≠ []) :
    forwardFun x0 factor (lastEnd A) = x0.headD 0 + rise (gapSegsO none A) := by
  obtain ⟨hlen, hflen, hf1, hch, hsne, hhi2, hgap⟩ := scale_context I x0 factor hne h
  have hsplit : segs x0 factor = gapSegsO none A ++ gapSegsO (some (lastEnd A)) B := by
    rw [hgap, hAB, gapSegsO_append A B none hAne]
  have hchA : Chained (x0.headD 0) (gapSegsO none A) :=
    chained_append_left _ _ _ (hsplit ▸ hch)
  have hAgne : gapSegsO none A ≠ [] := by
    cases A with
    | nil => exact absurd rfl hAne
    | cons t r => exact gapSegsO_ne_nil none t r
  have hhiA : hiOf (x0.headD 0) (gapSegsO none A) = lastEnd A := hiOf_gapSegsO A none _ hAne
  have hlobn : x0.headD 0 < lastEnd A := by
    rw [← hhiA]
    exact chained_lt_hiOf _ _ hchA hAgne
  have hch2 : Chained (hiOf (x0.headD 0) (gapSegsO none A)) (gapSegsO (some (lastEnd A)) B) :=
    chained_append_right _ _ _ (hsplit ▸ hch)
  have hble : lastEnd A ≤ x0.getLastD 0 := by
    have h3 := chained_le_hiOf _ _ hch2
    rw [hhiA] at h3
    rw [← hhi2, hsplit, hiOf_append, hhiA]
    exact h3
  rw [forwardFun_eq x0 factor (x0.headD 0) (x0.getLastD 0) rfl rfl hch hhi2]
  rw [if_neg (not_lt.mpr hble), if_pos hlobn, hsplit, ← hhiA]
  exact pv_initial (gapSegsO none A) _ _ _ hchA hAgne

/-- C1: for every nonempty interval list accepted by create_scale's
validation, the forward map `_forward` is strictly increasing on all of ℚ
and the inverse map `_inverse` is its exact two-sided inverse — exactly, in
rational arithmetic (the floating-point program satisfies this within
rounding).  The empty list is excluded: `_forward` on it would read an
unbound local in the source. -/
theorem C1_forward_strict_mono_inverse_exact (I : List (ℚ × ℚ × ℚ)) (x0 factor : List ℚ)
    (hne : I ≠ []) (h : buildScale I = some (x0, factor)) :
    (∀ u v : ℚ, u < v → forwardFun x0 factor u < forwardFun x0 factor v) ∧
    (∀ u : ℚ, inverseFun x0 factor (forwardFun x0 factor u) = u) ∧
    (∀ z : ℚ, forwardFun x0 factor (inverseFun x0 factor z) = z) := by
  obtain ⟨hlen, hflen, hf1, hch, hsne, hhi2, _⟩ := scale_context I x0 factor hne h
  have hlohi : x0.headD 0 < x0.getLastD 0 := by
    rw [← hhi2]
    exact chained_lt_hiOf _ _ hch hsne
  have hrpos : 0 < rise (segs x0 factor) := rise_pos _ _ hch hsne
  have hFeq : ∀ x, forwardFun x0 factor x =
      if x0.getLastD 0 < x then
        (x - x0.getLastD 0) * 1 + (x0.headD 0 + rise (segs x0 factor))
      else if x0.headD 0 < x then pv (segs x0 factor) x (x0.headD 0) else x := by
    intro x
    rw [forwardFun_eq x0 factor (x0.headD 0) (x0.getLastD 0) rfl rfl hch hhi2, hf1]
  have hIeq : ∀ z, inverseFun x0 factor z =
      if x0.headD 0 + rise (segs x0 factor) < z then
        (z - (x0.headD 0 + rise (segs x0 factor))) / 1 + x0.getLastD 0
      else if x0.headD 0 < z then piv (segs x0 factor) z (x0.headD 0) else z := by
    intro z
    rw [inverseFun_eq x0 factor (x0.headD 0) (x0.getLastD 0) rfl rfl hch z, hf1]
  refine ⟨?_, ?_, ?_⟩
  · intro u v huv
    rw [hFeq u, hFeq v]
    by_cases hv1 : x0.getLastD 0 < v
    · rw [if_pos hv1]
      by_cases hu1 : x0.getLastD 0 < u
      · rw [if_pos hu1]
        linarith
      · rw [if_neg hu1]
        by_cases hu2 : x0.headD 0 < u
        · rw [if_pos hu2]
          have hb := (pv_bounds _ _ u (x0.headD 0) hch hu2 (by
            rw [hhi2]; exact not_lt.mp hu1)).2
          linarith
        · rw [if_neg hu2]
          push_neg at hu2
          linarith
    · rw [if_neg hv1]
      have hv1' : v ≤ x0.getLastD 0 := not_lt.mp hv1
      have hu1 : ¬ x0.getLastD 0 < u := by
        push_neg
        linarith
      rw [if_neg hu1]
      by_cases hv2 : x0.headD 0 < v
      · rw [if_pos hv2]
        by_cases hu2 : x0.headD 0 < u
        · rw [if_pos hu2]
          exact pv_mono _ _ u v _ hch hu2 huv (by rw [hhi2]; exact hv1')
        · rw [if_neg hu2]
          push_neg at hu2
          have hb := (pv_bounds _ _ v (x0.headD 0) hch hv2 (by rw [hhi2]; exact hv1')).1
          linarith
      · rw [if_neg hv2]
        push_neg at hv2
        rw [if_neg (by push_neg; linarith : ¬ x0.headD 0 < u)]
        exact huv
  · intro u
    rw [hFeq u]
    by_cases h1 : x0.getLastD 0 < u
    · rw [if_pos h1, hIeq _]
      have hc : x0.headD 0 + rise (segs x0 factor) <
          (u - x0.getLastD 0) * 1 + (x0.headD 0 + rise (segs x0 factor)) := by
        nlinarith
      rw [if_pos hc]
      field_simp
    · rw [if_neg h1]
      by_cases h2 : x0.headD 0 < u
      · rw [if_pos h2]
        have hb := pv_bounds _ _ u (x0.headD 0) hch h2 (by rw [hhi2]; exact not_lt.mp h1)
        rw [hIeq _, if_neg (not_lt.mpr hb.2), if_pos hb.1]
        exact pv_piv _ _ u _ hch h2 (by rw [hhi2]; exact not_lt.mp h1)
      · rw [if_neg h2]
        push_neg at h2
        rw [hIeq u, if_neg (by push_neg; linarith : ¬ x0.headD 0 + rise (segs x0 factor) < u),
          if_neg (not_lt.mpr h2)]
  · intro z
    rw [hIeq z]
    by_cases h1 : x0.headD 0 + rise (segs x0 factor) < z
    · rw [if_pos h1, hFeq _]
      have hzr : 0 < z - (x0.headD 0 + rise (segs x0 factor)) := by linarith
      have hc : x0.getLastD 0 <
          (z - (x0.headD 0 + rise (segs x0 factor))) / 1 + x0.getLastD 0 := by
        rw [div_one]
        linarith
      rw [if_pos hc]
      field_simp
    · rw [if_neg h1]
      by_cases h2 : x0.headD 0 < z
      · rw [if_pos h2]
        obtain ⟨⟨hl, hh⟩, hpveq⟩ := piv_pv _ _ z (x0.headD 0) hch h2 (not_lt.mp h1)
        rw [hFeq _, if_neg (by rw [← hhi2]; exact not_lt.mpr hh), if_pos hl]
        exact hpveq
      · rw [if_neg h2]
        push_neg at h2
        rw [hFeq z, if_neg (by push_neg; linarith : ¬ x0.getLastD 0 < z),
          if_neg (not_lt.mpr h2)]

theorem C1_witness :
    forwardFun [(0 : ℚ), 1, 2, 3] [2, 1, 4, 1] (1 / 2) <
      forwardFun [(0 : ℚ), 1, 2, 3] [2, 1, 4, 1] (5 / 2) ∧
    inverseFun [(0 : ℚ), 1, 2, 3] [2, 1, 4, 1]
      (forwardFun [(0 : ℚ), 1, 2, 3] [2, 1, 4, 1] (5 / 2)) = 5 / 2 := by
  have h := C1_forward_strict_mono_inverse_exact [((0 : ℚ), 1, 2), (2, 3, 4)]
    [0, 1, 2, 3] [2, 1, 4, 1] (by simp) rfl
  exact ⟨h.1 (1 / 2) (5 / 2) (by norm_num), h.2.1 (5 / 2)⟩

/-- C2 counterexample: for the valid interval list [(0,1,2),(2,3,4)] the
code maps the inter-interval gap (1,2) with slope 1, so forward(b_2) = 7,
but the claimed invariant forward(a_1) + (width_1·f_1 + width_2·f_2)
evaluates to 0 + (1·2 + 1·4) = 6. -/
theorem C2_counterexample :
    buildScale [((0 : ℚ), 1, 2), (2, 3, 4)] = some ([0, 1, 2, 3], [2, 1, 4, 1]) ∧
    forwardFun [(0 : ℚ), 1, 2, 3] [2, 1, 4, 1] 3 = 7 ∧
    forwardFun [(0 : ℚ), 1, 2, 3] [2, 1, 4, 1] 0 = 0 ∧
    claimCum [((0 : ℚ), 1, 2), (2, 3, 4)] = 6 ∧
    forwardFun [(0 : ℚ), 1, 2, 3] [2, 1, 4, 1] 3 ≠
      forwardFun [(0 : ℚ), 1, 2, 3] [2, 1, 4, 1] 0 +
        claimCum [((0 : ℚ), 1, 2), (2, 3, 4)] := by
  refine ⟨rfl, ?_, ?_, ?_, ?_⟩ <;>
    norm_num [forwardFun, segs, forwardLoop, claimCum, List.headD, List.getLastD]

/-- C2 as amended: forward at the n-th breakpoint equals forward at the
anchor a_1 plus the claimed cumulative sum of width·factor over the first
n+1 intervals plus the total width of the gaps between those intervals
(which the code maps with unit slope); the gap term is what the original
claim omitted, and it vanishes exactly when the intervals are contiguous. -/
theorem C2_breakpoint_cumsum (I : List (ℚ × ℚ × ℚ)) (x0 factor : List ℚ)
    (hne : I ≠ []) (h : buildScale I = some (x0, factor)) (n : ℕ) (hn : n < I.length) :
    forwardFun x0 factor (I.getD n (0, 0, 0)).2.1 =
      forwardFun x0 factor (I.headD (0, 0, 0)).1 +
        (claimCum (I.take (n + 1)) + gapCum (I.headD (0, 0, 0)).1 (I.take (n + 1))) := by
  obtain ⟨hlen, hflen, hf1, hch, hsne, hhi2, hgap⟩ := scale_context I x0 factor hne h
  have hvalid : validSpec I := buildScale_validSpec I x0 factor h
  have hAne : I.take (n + 1) ≠ [] := by
    cases I with
    | nil => simp at hn
    | cons t rest => simp [List.take_succ_cons]
  have hAB : I = I.take (n + 1) ++ I.drop (n + 1) := (List.take_append_drop (n + 1) I).symm
  have hF := forward_at_prefix_end I x0 factor hne h (I.take (n + 1)) (I.drop (n + 1)) hAB hAne
  have ha1 : x0.headD 0 = (I.headD (0, 0, 0)).1 := by
    cases I with
    | nil => exact absurd rfl hne
    | cons t rest =>
      obtain ⟨a, b, f⟩ := t
      rw [gapSegsO_cons_none] at hgap
      rw [List.headD_cons]
      exact segs_head_eq x0 factor a b f _ hgap
  have hlohi : x0.headD 0 < x0.getLastD 0 := by
    rw [← hhi2]
    exact chained_lt_hiOf _ _ hch hsne
  have hFa1 : forwardFun x0 factor (x0.headD 0) = x0.headD 0 := by
    rw [forwardFun_eq x0 factor (x0.headD 0) (x0.getLastD 0) rfl rfl hch hhi2]
    rw [if_neg (by linarith), if_neg (lt_irrefl _)]
  have hvA : validFrom none (I.take (n + 1)) :=
    validFrom_append_left (I.take (n + 1)) (I.drop (n + 1)) none (by rw [← hAB]; exact hvalid)
  have hrA := rise_gapSegsO_none (I.take (n + 1)) hvA hAne
  have hheads : ((I.take (n + 1)).headD (0, 0, 0)).1 = (I.headD (0, 0, 0)).1 := by
    rw [headD_take]
  rw [lastEnd_take I n hn] at hF
  rw [hF, ← ha1, hFa1, hrA, hheads, ← ha1]
  ring

theorem C2_witness :
    forwardFun [(0 : ℚ), 1, 2, 3] [2, 1, 4, 1] 3 =
      forwardFun [(0 : ℚ), 1, 2, 3] [2, 1, 4, 1] 0 +
        (claimCum ([((0 : ℚ), 1, 2), (2, 3, 4)].take 2) +
          gapCum 0 ([((0 : ℚ), 1, 2), (2, 3, 4)].take 2)) :=
  C2_breakpoint_cumsum [((0 : ℚ), 1, 2), (2, 3, 4)] [0, 1, 2, 3] [2, 1, 4, 1]
    (by simp) rfl 1 (by simp)

/-- C3: create_scale raises (produces no scale object) exactly when the
interval list violates the ordering constraints (some start ≥ end, or a
later interval starting before the previous end) or has a factor ≤ 0; the
failure happens in the validation walk, modelled by create_scale returning
none, before any FuncScale is built; in particular both listed examples
fail. -/
theorem C3_validation_iff :
    (∀ I : List (ℚ × ℚ × ℚ), create_scale I = none ↔ ¬ validSpec I) ∧
    create_scale [((0 : ℚ), 5, 1), (3, 8, 1)] = none ∧
    create_scale [((0 : ℚ), 5, -1)] = none := by
  have hbase : ∀ I : List (ℚ × ℚ × ℚ), create_scale I = none ↔ buildScale I = none := by
    intro I
    unfold create_scale
    cases hb : buildScale I with
    | none => simp
    | some v =>
      obtain ⟨x0, factor⟩ := v
      simp
  refine ⟨?_, ?_, ?_⟩
  · intro I
    rw [hbase I]
    exact buildLoop_none_iff I none [] []
  · rw [hbase]
    rfl
  · rw [hbase]
    rfl

theorem C3_witness : ¬ validSpec [((0 : ℚ), 5, 1), (3, 8, 1)] :=
  (C3_validation_iff.1 [((0 : ℚ), 5, 1), (3, 8, 1)]).mp rfl

/-- C4 counterexample: for the single valid interval [(0,1,2)] the code
extrapolates past b_1 = 1 with factor[-1] = 1, giving forward(2) = 3,
while the claim's formula forward(1) + (2 - 1)·f_1 gives 2 + 2 = 4. -/
theorem C4_counterexample :
    buildScale [((0 : ℚ), 1, 2)] = some ([0, 1], [2, 1]) ∧
    forwardFun [(0 : ℚ), 1] [2, 1] 2 = 3 ∧
    forwardFun [(0 : ℚ), 1] [2, 1] 1 = 2 ∧
    forwardFun [(0 : ℚ), 1] [2, 1] 2 ≠
      forwardFun [(0 : ℚ), 1] [2, 1] 1 + (2 - 1) * 2 := by
  refine ⟨rfl, ?_, ?_, ?_⟩ <;>
    norm_num [forwardFun, segs, forwardLoop, List.headD, List.getLastD]

/-- C4 as amended: past the last breakpoint b_k the forward map extrapolates
linearly with slope 1 — the trailing unit factor the construction always
appends to the factor list (factor[-1]) — not with the last interval's
scale factor. -/
theorem C4_extrapolation_unit_slope (I : List (ℚ × ℚ × ℚ)) (x0 factor : List ℚ)
    (hne : I ≠ []) (h : buildScale I = some (x0, factor)) (x : ℚ) (hx : lastEnd I < x) :
    forwardFun x0 factor x = forwardFun x0 factor (lastEnd I) + (x - lastEnd I) * 1 := by
  obtain ⟨hlen, hflen, hf1, hch, hsne, hhi2, hgap⟩ := scale_context I x0 factor hne h
  have hhiI : x0.getLastD 0 = lastEnd I := by
    rw [← hhi2, hgap]
    exact hiOf_gapSegsO I none _ hne
  have hFlast : forwardFun x0 factor (lastEnd I) = x0.headD 0 + rise (gapSegsO none I) :=
    forward_at_prefix_end I x0 factor hne h I [] (by simp) hne
  rw [forwardFun_eq x0 factor (x0.headD 0) (lastEnd I) rfl hhiI hch (hhi2.trans hhiI)]
  rw [if_pos hx, hf1, hFlast, hgap]
  ring

theorem C4_witness :
    forwardFun [(0 : ℚ), 1] [2, 1] 4 =
      forwardFun [(0 : ℚ), 1] [2, 1] (lastEnd [((0 : ℚ), 1, 2)]) +
        (4 - lastEnd [((0 : ℚ), 1, 2)]) * 1 :=
  C4_extrapolation_unit_slope [((0 : ℚ), 1, 2)] [0, 1] [2, 1] (by simp) rfl 4
    (by norm_num [lastEnd])

/-- C5 (code evaluation at the failing input): clip_axes with which="upper"
never installs the upper spine clip paths — the source's branch tests
`which in ["high", "both"]` while validation only admits
lower/upper/both — so for x breaks no top-spine clip and for y breaks no
right-spine clip is set; with which="lower" the bottom spine is clipped,
exhibiting the asymmetry the claim (and clip_axes' own docstring) denies. -/
theorem C5_upper_spine_not_clipped :
    clip_axes ⟨1, 1, 0, 0, 72⟩ (0, 10) (0, 10) (.listArg [5]) .noneArg .upper false 5 =
      ([], none) ∧
    clip_axes ⟨1, 1, 0, 0, 72⟩ (0, 10) (0, 10) .noneArg (.listArg [5]) .upper false 5 =
      ([], none) ∧
    clip_axes ⟨1, 1, 0, 0, 72⟩ (0, 10) (0, 10) (.listArg [5]) (.listArg [5]) .upper true 5 =
      ([Eff.artistClip], none) ∧
    clip_axes ⟨1, 1, 0, 0, 72⟩ (0, 10) (0, 10) (.listArg [5]) .noneArg .lower false 5 =
      ([Eff.spineClip .bottom], none) :=
  ⟨rfl, rfl, rfl, rfl⟩

/-- C6: each orchestration function checks `which` first and raises with no
effect recorded when it is outside lower/upper/both (including the stray
value "high" that a later branch tests for), and the axis-taking helpers
scale_axis, add_broken_line and get_broken_points likewise fail first, with
no mutation, on an axis outside x/y. -/
theorem C6_invalid_args_no_mutation :
    (∀ (c : AxCtx) (xl yl : ℚ × ℚ) (x y : BreakArg) (ac : Bool) (g : ℚ) (w : WhichArg),
      ¬ (w = .lower ∨ w = .upper ∨ w = .both) →
        add_broken_line_in_axis xl yl x y w = ([], some .invalidWhich) ∧
        clip_axes c xl yl x y w ac g = ([], some .invalidWhich) ∧
        broken_and_clip_axes c xl yl x y w ac g = ([], some .invalidWhich)) ∧
    (∀ (interval : List (ℚ × ℚ × ℚ)) (c : AxCtx) (x y : BreakArg) (px py g dx dy : ℚ)
        (axis : AxisArg), ¬ (axis = .xAxis ∨ axis = .yAxis) →
        scale_axis interval axis = ([], some .invalidAxis) ∧
        add_broken_line x y axis = ([], some .invalidAxis) ∧
        get_broken_points c px py axis g dx dy = .error .invalidAxis) := by
  constructor
  · intro c xl yl x y ac g w hw
    cases w with
    | lower => exact absurd (Or.inl rfl) hw
    | upper => exact absurd (Or.inr (Or.inl rfl)) hw
    | both => exact absurd (Or.inr (Or.inr rfl)) hw
    | high => exact ⟨rfl, rfl, rfl⟩
    | otherWhich => exact ⟨rfl, rfl, rfl⟩
  · intro interval c x y px py g dx dy axis ha
    cases axis with
    | xAxis => exact absurd (Or.inl rfl) ha
    | yAxis => exact absurd (Or.inr rfl) ha
    | otherAxis => exact ⟨rfl, rfl, rfl⟩

theorem C6_witness :
    add_broken_line_in_axis (0, 1) (0, 1) (.listArg [5]) .noneArg .otherWhich =
      ([], some .invalidWhich) :=
  (C6_invalid_args_no_mutation.1 ⟨1, 1, 0, 0, 72⟩ (0, 1) (0, 1) (.listArg [5]) .noneArg
    true 5 .otherWhich (by simp)).1

/-- C7 (code evaluation): scalar/list broadcasting works and mismatched list
lengths fail with the length assertion first, as claimed; but two lists of
the SAME length fall through every return branch of the source and hit the
final `raise ValueError`, so xy2points([1,2],[3,4]) raises instead of
returning [(1,3),(2,4)] as both the claim and the function's own docstring
example state. -/
theorem C7_xy2points_eval :
    xy2points (.scalarArg 5) (.listArg [1, 2, 3]) = .ok [(5, 1), (5, 2), (5, 3)] ∧
    xy2points (.scalarArg 4) (.scalarArg 6) = .ok [(4, 6)] ∧
    xy2points (.listArg [1, 2]) (.scalarArg 7) = .ok [(1, 7), (2, 7)] ∧
    xy2points (.listArg [1, 2]) (.listArg [3, 4, 5]) = .error .lengthMismatch ∧
    xy2points (.listArg [1, 2]) (.listArg [3, 4]) = .error .badType :=
  ⟨rfl, rfl, rfl, rfl, rfl⟩

/-- C8 (code evaluation at the failing inputs): the grid builder
get_axes_clip_path iterates both break arguments unconditionally, so a
scalar break position or a missing (None) direction — both allowed by the
break-specification data model and by the functions' own signatures —
raises TypeError instead of constructing the grid; clip_axes with the
default axes_clip=True therefore fails after having already installed the
spine clips; with two proper lists the grid of per-cell rectangles is
produced as described. -/
theorem C8_axes_clip_requires_lists :
    get_axes_clip_path ⟨1, 1, 0, 0, 72⟩ (0, 10) (0, 10) (.scalarArg 5) (.listArg [3]) 5 =
      .error .typeError ∧
    get_axes_clip_path ⟨1, 1, 0, 0, 72⟩ (0, 10) (0, 10) (.listArg [1]) .noneArg 5 =
      .error .typeError ∧
    clip_axes ⟨1, 1, 0, 0, 72⟩ (0, 10) (0, 10) (.scalarArg 5) (.listArg [3]) .both true 5 =
      ([Eff.spineClip .bottom, Eff.spineClip .top, Eff.spineClip .left, Eff.spineClip .right],
        some .typeError) ∧
    get_axes_clip_path ⟨1, 1, 0, 0, 72⟩ (0, 10) (0, 10) (.listArg [5]) (.listArg [3]) 4 =
      .ok [⟨(0, 0), (3, 0), (3, 1), (0, 1)⟩, ⟨(0, 5), (3, 5), (3, 10), (0, 10)⟩,
           ⟨(7, 0), (10, 0), (10, 1), (7, 1)⟩, ⟨(7, 5), (10, 5), (10, 10), (7, 10)⟩] := by
  refine ⟨rfl, rfl, rfl, ?_⟩
  norm_num [get_axes_clip_path, iterElems, offset_data_point, pairUp]

theorem offset_at_origin (c : AxCtx) (d e : ℚ) :
    offset_data_point c 0 0 d e = (d / 72 * c.dpi / c.sx, e / 72 * c.dpi / c.sy) := by
  simp only [offset_data_point, Prod.mk.injEq]
  constructor <;> ring

/-- C9: under any diagonal affine data-to-display transform with positive
scales and dpi, get_broken_points at (0,0) with axis="x", gap=4, dx=dy=0
returns four points that collapse to two distinct locations (±k, 0),
symmetric about the origin and offset purely in the x display direction; in
general a valid axis yields exactly four points, and any other axis value
raises the invalid-argument error. -/
theorem C9_broken_points_geometry (c : AxCtx) (hsx : 0 < c.sx) (hsy : 0 < c.sy)
    (hd : 0 < c.dpi) :
    (∃ k : ℚ, 0 < k ∧
      get_broken_points c 0 0 .xAxis 4 0 0 = .ok [(-k, 0), (-k, 0), (k, 0), (k, 0)]) ∧
    (∀ x y gap dx dy : ℚ, ∀ axis : AxisArg, axis = .xAxis ∨ axis = .yAxis →
      ∃ pts, get_broken_points c x y axis gap dx dy = .ok pts ∧ pts.length = 4) ∧
    (∀ x y gap dx dy : ℚ,
      get_broken_points c x y .otherAxis gap dx dy = .error .invalidAxis) := by
  refine ⟨?_, ?_, ?_⟩
  · refine ⟨c.dpi / (36 * c.sx), div_pos hd (by positivity), ?_⟩
    have hsx' : c.sx ≠ 0 := ne_of_gt hsx
    have hstep : get_broken_points c 0 0 .xAxis 4 0 0 =
        .ok [offset_data_point c 0 0 (-2) 0, offset_data_point c 0 0 (-2) 0,
             offset_data_point c 0 0 2 0, offset_data_point c 0 0 2 0] := by
      norm_num [get_broken_points]
    rw [hstep, offset_at_origin, offset_at_origin]
    simp only [Except.ok.injEq, List.cons.injEq, Prod.mk.injEq, and_true]
    norm_num
    constructor <;> field_simp
  · intro x y gap dx dy axis haxis
    rcases haxis with h | h <;> subst h
    · exact ⟨_, rfl, rfl⟩
    · exact ⟨_, rfl, rfl⟩
  · intro x y gap dx dy
    rfl

theorem C9_witness :
    ∃ k : ℚ, 0 < k ∧ get_broken_points ⟨1, 1, 0, 0, 72⟩ 0 0 .xAxis 4 0 0 =
      .ok [(-k, 0), (-k, 0), (k, 0), (k, 0)] :=
  (C9_broken_points_geometry ⟨1, 1, 0, 0, 72⟩ (by norm_num) (by norm_num) (by norm_num)).1

/-- C10 counterexample: under the default axes_clip=True, clip_axes with the
falsy break position x = 0 does raise — the whole-axes grid builder tries
to iterate the scalar 0 (TypeError) — contradicting the claim's "with no
error raised"; the truthiness part itself is right (no spine clip was
installed for either direction). -/
theorem C10_counterexample :
    clip_axes ⟨1, 1, 0, 0, 72⟩ (0, 10) (0, 10) (.scalarArg 0) .noneArg .both true 5 =
      ([], some .typeError) := rfl

/-- C10 as amended: add_broken_line_in_axis and clip_axes test break
positions by truthiness, so scalar 0 (or 0.0) and the empty list are
silently treated as absent: no markers are drawn, no spine clip paths are
installed, and no error is raised by add_broken_line_in_axis or by
clip_axes with axes_clip=False; but with the default axes_clip=True,
clip_axes still reaches the whole-axes grid builder and raises TypeError
when the falsy value is not iterable (scalar 0 or None). -/
theorem C10_falsy_treated_absent (x y : BreakArg) (hx : truthy x = false)
    (hy : truthy y = false) (xl yl : ℚ × ℚ) (c : AxCtx) (g : ℚ) (w : WhichArg)
    (hw : w = .lower ∨ w = .upper ∨ w = .both) :
    add_broken_line_in_axis xl yl x y w = ([], none) ∧
    clip_axes c xl yl x y w false g = ([], none) ∧
    (∀ e : Edge, Eff.spineClip e ∉ (clip_axes c xl yl x y w true g).1) ∧
    ((x = .scalarArg 0 ∨ x = .noneArg) →
      clip_axes c xl yl x y w true g = ([], some .typeError)) := by
  have hwin : whichIn w [.lower, .upper, .both] = true := by
    rcases hw with h | h | h <;> subst h <;> rfl
  refine ⟨?_, ?_, ?_, ?_⟩
  · simp only [add_broken_line_in_axis, hwin]
    simp [seqEff, hx, hy]
  · simp only [clip_axes, hwin]
    simp [hx, hy]
  · intro e
    simp only [clip_axes, hwin]
    simp only [hx, Bool.false_eq_true, if_false, hy, not_true_eq_false, if_true,
      List.nil_append]
    cases hgc : get_axes_clip_path c xl yl x y g with
    | error err => simp [hgc]
    | ok r => simp [hgc]
  · rintro (hx0 | hx0) <;> subst hx0 <;>
      · simp only [clip_axes, hwin]
        simp [hx, hy, get_axes_clip_path, iterElems]

theorem C10_witness :
    add_broken_line_in_axis (0, 1) (0, 1) (.scalarArg 0) (.listArg []) .both = ([], none) :=
  (C10_falsy_treated_absent (.scalarArg 0) (.listArg []) rfl rfl (0, 1) (0, 1)
    ⟨1, 1, 0, 0, 72⟩ 5 .both (Or.inr (Or.inr rfl))).1

end BreakAxes
